import Mathlib

/-!
Shallow embedding of the Nim browser game's engine: the `Pile` class
(Pile.js) and the `NimGame` class (NimGame.js). JS field mutation is
modelled by explicit state passing. A thrown TypeError — indexing past
the end of the `piles` array and then invoking a method on `undefined`,
or reading a field of `undefined` — is modelled as `none` in an outer
`Option` wrapped around the result; `some` results are normal returns.
Pile counts are natural numbers; amounts and pile indices arriving from
the caller are integers, so that negative inputs are representable.
-/

/-- The two players, the JS strings 'user' and 'computer'. -/
inductive Player where
  | user
  | computer
deriving DecidableEq, Repr

/-- One heap of items: `constructor(initialCount, id)` stores both fields. -/
structure Pile where
  count : Nat
  id : Nat
deriving DecidableEq, Repr

/-- `removeItems(amount)`: if `amount > 0 && amount <= this.count` then
`this.count -= amount; return true` else `return false` (after logging).
Returned as (success flag, pile after the call). -/
def Pile.removeItems (p : Pile) (amount : Int) : Bool × Pile :=
  if 0 < amount ∧ amount ≤ (p.count : Int) then
    (true, { p with count := p.count - amount.toNat })
  else
    (false, p)

/-- `isEmpty()`: `this.count === 0`. -/
def Pile.isEmpty (p : Pile) : Bool :=
  p.count == 0

/-- `reset(newCount)`: `this.count = newCount`. -/
def Pile.reset (p : Pile) (newCount : Nat) : Pile :=
  { p with count := newCount }

/-- The `{ pileCounts, startingPlayer }` object stored in `initialConfig`. -/
structure InitialConfig where
  pileCounts : List Nat
  startingPlayer : Player
deriving DecidableEq, Repr

/-- The chosen AI move `{ pileIndex, amount }`. -/
structure Move where
  pileIndex : Nat
  amount : Nat
deriving DecidableEq, Repr

/-- The `NimGame` instance state. -/
structure NimGame where
  piles : List Pile
  currentPlayer : Player
  gameOver : Bool
  winner : Option Player
  initialConfig : InitialConfig
deriving DecidableEq, Repr

/-- `pileCounts.map((count, index) => new Pile(count, index))`, with `i`
the index of the first element of the remaining list. -/
def buildPiles : List Nat → Nat → List Pile
  | [], _ => []
  | c :: rest, i => ⟨c, i⟩ :: buildPiles rest (i + 1)

/-- The `NimGame` constructor. -/
def NimGame.init (pileCounts : List Nat) (startingPlayer : Player) : NimGame :=
  { piles := buildPiles pileCounts 0
    currentPlayer := startingPlayer
    gameOver := false
    winner := none
    initialConfig := ⟨pileCounts, startingPlayer⟩ }

/-- JS array read `piles[i]` with an arbitrary integer index: `undefined`
(here `none`) when the index is negative or past the end. -/
def jsGet (l : List Pile) (i : Int) : Option Pile :=
  if 0 ≤ i then l[i.toNat]? else none

/-- `checkGameOver()`: `totalItems = piles.reduce((acc, pile) => acc + pile.count, 0)`;
if zero, set `gameOver = true` and `winner = currentPlayer`. -/
def NimGame.checkGameOver (g : NimGame) : NimGame :=
  if g.piles.foldl (fun acc p => acc + p.count) 0 = 0 then
    { g with gameOver := true, winner := some g.currentPlayer }
  else g

/-- `userMove(pileIndex, amount)`. The early `return false` when it is not
the user's turn or the game is over; otherwise
`piles[pileIndex].removeItems(amount)` (a TypeError, `none`, when the
index is out of range), then on success `checkGameOver()` and, if the
game is not over, the turn passes to the computer. -/
def NimGame.userMove (g : NimGame) (pileIndex amount : Int) : Option (Bool × NimGame) :=
  if g.currentPlayer ≠ Player.user ∨ g.gameOver = true then
    some (false, g)
  else
    match jsGet g.piles pileIndex with
    | none => none
    | some p =>
      let r := p.removeItems amount
      let g1 : NimGame := { g with piles := g.piles.set pileIndex.toNat r.2 }
      if r.1 = true then
        let g2 := g1.checkGameOver
        if g2.gameOver = true then some (true, g2)
        else some (true, { g2 with currentPlayer := Player.computer })
      else
        some (false, g1)

/-- `piles.reduce((acc, pile) => acc ^ pile.count, 0)`, the Nim-sum. -/
def NimGame.nimSum (g : NimGame) : Nat :=
  g.piles.foldl (fun acc p => acc ^^^ p.count) 0

/-- The `for` loop of `calculateBestMove`, scanning the remaining piles;
`i` is the index of the first remaining pile. Returns the first pile
where `piles[i].count ^ nimSum < piles[i].count` together with the
amount `piles[i].count - targetCount`, or `none` when the loop ends. -/
def bestMoveLoop (ns : Nat) : List Pile → Nat → Option Move
  | [], _ => none
  | p :: rest, i =>
    let targetCount := p.count ^^^ ns
    if targetCount < p.count then some ⟨i, p.count - targetCount⟩
    else bestMoveLoop ns rest (i + 1)

/-- `calculateBestMove()`. When the Nim-sum is 0 the code does
`piles.find(p => p.count > 0)` and returns `{ pileIndex: firstPile.id, amount: 1 }`;
when every pile is empty `find` yields `undefined` and reading
`firstPile.id` throws (outer `none`). When the Nim-sum is nonzero the
`for` loop runs; its fall-through `return null` is `some none`. -/
def NimGame.calculateBestMove (g : NimGame) : Option (Option Move) :=
  let ns := g.nimSum
  if ns = 0 then
    match g.piles.find? (fun p => decide (0 < p.count)) with
    | none => none
    | some firstPile => some (some ⟨firstPile.id, 1⟩)
  else
    match bestMoveLoop ns g.piles 0 with
    | some m => some (some m)
    | none => some none

/-- `makeAIMove()`: `return null` when it is not the computer's turn or the
game is over; otherwise apply the move from `calculateBestMove()` (whose
success flag is not inspected), run `checkGameOver()`, pass the turn back
to the user when the game is not over, and return the move. -/
def NimGame.makeAIMove (g : NimGame) : Option (Option Move × NimGame) :=
  if g.currentPlayer ≠ Player.computer ∨ g.gameOver = true then
    some (none, g)
  else
    match g.calculateBestMove with
    | none => none
    | some none => some (none, g)
    | some (some m) =>
      match g.piles[m.pileIndex]? with
      | none => none
      | some p =>
        let r := p.removeItems (m.amount : Int)
        let g1 : NimGame := { g with piles := g.piles.set m.pileIndex r.2 }
        let g2 := g1.checkGameOver
        if g2.gameOver = true then some (some m, g2)
        else some (some m, { g2 with currentPlayer := Player.user })

/-- `reset(pileCounts = this.initialConfig.pileCounts, startingPlayer = this.initialConfig.startingPlayer)`:
an omitted argument (here `none`) falls back to the stored configuration;
the configuration used is stored back into `initialConfig`, the piles are
rebuilt and the flags cleared. -/
def NimGame.reset (g : NimGame) (pileCounts : Option (List Nat))
    (startingPlayer : Option Player) : NimGame :=
  let pc := pileCounts.getD g.initialConfig.pileCounts
  let sp := startingPlayer.getD g.initialConfig.startingPlayer
  { piles := buildPiles pc 0
    currentPlayer := sp
    gameOver := false
    winner := none
    initialConfig := ⟨pc, sp⟩ }

/-- The list of pile counts of a state. -/
def NimGame.counts (g : NimGame) : List Nat :=
  g.piles.map Pile.count

/-- Total number of items on the board. -/
def sumCounts (g : NimGame) : Nat :=
  g.counts.sum

/-- XOR of a list of naturals (the Nim-sum of a counts list). -/
def listXor (l : List Nat) : Nat :=
  l.foldl (fun a b => a ^^^ b) 0

/-- A pile-size configuration the UI layer would pass the engine:
a nonempty list of positive sizes. -/
def goodConfig (pc : List Nat) : Prop :=
  pc ≠ [] ∧ ∀ c ∈ pc, 0 < c

instance : DecidablePred goodConfig := fun pc => by
  unfold goodConfig; infer_instance

/-- States producible through the public surface: construction with a
valid configuration, the two move commands (when they return rather than
throw), and reset with a valid or omitted configuration. -/
inductive Reachable : NimGame → Prop where
  | init (pc : List Nat) (sp : Player) (hpc : goodConfig pc) :
      Reachable (NimGame.init pc sp)
  | user (g g2 : NimGame) (i a : Int) (b : Bool) (hg : Reachable g)
      (hstep : g.userMove i a = some (b, g2)) : Reachable g2
  | ai (g g2 : NimGame) (m : Option Move) (hg : Reachable g)
      (hstep : g.makeAIMove = some (m, g2)) : Reachable g2
  | reset (g : NimGame) (pc : Option (List Nat)) (sp : Option Player)
      (hg : Reachable g) (hpc : ∀ l, pc = some l → goodConfig l) :
      Reachable (g.reset pc sp)

/-! ### Basic facts about `listXor` and the Nim-sum -/

theorem foldl_xor (l : List Nat) : ∀ a : Nat,
    l.foldl (fun x y => x ^^^ y) a = a ^^^ listXor l := by
  induction l with
  | nil => intro a; simp [listXor]
  | cons c l ih =>
    intro a
    have h1 : listXor (c :: l) = c ^^^ listXor l := by
      show l.foldl (fun x y => x ^^^ y) (0 ^^^ c) = c ^^^ listXor l
      rw [ih (0 ^^^ c), Nat.zero_xor]
    show l.foldl (fun x y => x ^^^ y) (a ^^^ c) = a ^^^ listXor (c :: l)
    rw [ih (a ^^^ c), h1, Nat.xor_assoc]

theorem listXor_cons (c : Nat) (l : List Nat) : listXor (c :: l) = c ^^^ listXor l := by
  show l.foldl (fun x y => x ^^^ y) (0 ^^^ c) = c ^^^ listXor l
  rw [foldl_xor, Nat.zero_xor]

theorem nimSum_eq_listXor (g : NimGame) : g.nimSum = listXor g.counts := by
  show g.piles.foldl (fun acc p => acc ^^^ p.count) 0 = listXor (g.piles.map Pile.count)
  rw [← List.foldl_map]
  rfl

theorem sumCounts_foldl (g : NimGame) :
    g.piles.foldl (fun acc p => acc + p.count) 0 = sumCounts g := by
  show g.piles.foldl (fun acc p => acc + p.count) 0 = (g.piles.map Pile.count).sum
  rw [← List.foldl_map]
  rw [List.sum_eq_foldl]

theorem listXor_set (l : List Nat) : ∀ (i x : Nat), i < l.length →
    listXor (l.set i x) = listXor l ^^^ l.getD i 0 ^^^ x := by
  induction l with
  | nil => intro i x h; simp at h
  | cons c l ih =>
    intro i x h
    cases i with
    | zero =>
      rw [List.set_cons_zero, listXor_cons, listXor_cons, List.getD_cons_zero,
        Nat.xor_comm c (listXor l), Nat.xor_cancel_right]
      exact Nat.xor_comm x (listXor l)
    | succ i =>
      have hi : i < l.length := by simpa using h
      rw [List.set_cons_succ, listXor_cons, listXor_cons, ih i x hi,
        List.getD_cons_succ, ← Nat.xor_assoc, ← Nat.xor_assoc]

theorem testBit_listXor_false (l : List Nat) (k : Nat)
    (h : ∀ c ∈ l, c.testBit k = false) : (listXor l).testBit k = false := by
  induction l with
  | nil => exact Nat.zero_testBit k
  | cons c l ih =>
    rw [listXor_cons, Nat.testBit_xor, h c (List.mem_cons_self c l),
      ih (fun d hd => h d (List.mem_cons_of_mem c hd))]
    rfl

/-- The classic Nim lemma: when the Nim-sum of a list is nonzero, some
position holds a count that strictly shrinks when XORed with it. -/
theorem exists_xor_lt (l : List Nat) (h : listXor l ≠ 0) :
    ∃ j, j < l.length ∧ (l.getD j 0) ^^^ (listXor l) < l.getD j 0 := by
  obtain ⟨i, hi, hi2⟩ := Nat.exists_most_significant_bit h
  have hexists : ∃ c ∈ l, c.testBit i = true := by
    by_contra hc
    push_neg at hc
    have hall : ∀ c ∈ l, c.testBit i = false := by
      intro c hcl
      cases hb : c.testBit i with
      | false => rfl
      | true => exact absurd hb (hc c hcl)
    rw [testBit_listXor_false l i hall] at hi
    exact Bool.false_ne_true hi
  obtain ⟨c, hcl, hbit⟩ := hexists
  obtain ⟨j, hj, hje⟩ := List.getElem_of_mem hcl
  refine ⟨j, hj, ?_⟩
  rw [List.getD_eq_getElem l 0 hj, hje]
  refine Nat.lt_of_testBit i ?_ hbit ?_
  · rw [Nat.testBit_xor, hbit, hi]
    rfl
  · intro k hk
    rw [Nat.testBit_xor, hi2 k hk]
    cases c.testBit k <;> rfl

/-! ### Characterizations of the scanning loops -/

/-- Default pile used with `List.getD` on pile lists. -/
def dPile : Pile := ⟨0, 0⟩

theorem bestMoveLoop_none (ns : Nat) (l : List Pile) : ∀ i : Nat,
    bestMoveLoop ns l i = none →
    ∀ j, j < l.length → ¬ ((l.getD j dPile).count ^^^ ns < (l.getD j dPile).count) := by
  induction l with
  | nil => intro i h j hj; simp at hj
  | cons p rest ih =>
    intro i h j hj
    rw [bestMoveLoop] at h
    by_cases hp : p.count ^^^ ns < p.count
    · simp only [hp, if_pos] at h
      exact Option.noConfusion h
    · simp only [hp, if_neg, if_false] at h
      cases j with
      | zero => simpa [List.getD_cons_zero] using hp
      | succ j =>
        rw [List.getD_cons_succ]
        exact ih (i + 1) h j (by simpa using hj)

theorem bestMoveLoop_some (ns : Nat) (l : List Pile) : ∀ (i : Nat) (m : Move),
    bestMoveLoop ns l i = some m →
    ∃ j, j < l.length ∧ m.pileIndex = i + j ∧
      (l.getD j dPile).count ^^^ ns < (l.getD j dPile).count ∧
      m.amount = (l.getD j dPile).count - ((l.getD j dPile).count ^^^ ns) ∧
      ∀ k, k < j → ¬ ((l.getD k dPile).count ^^^ ns < (l.getD k dPile).count) := by
  induction l with
  | nil => intro i m h; rw [bestMoveLoop] at h; exact absurd h (by simp)
  | cons p rest ih =>
    intro i m h
    rw [bestMoveLoop] at h
    by_cases hp : p.count ^^^ ns < p.count
    · simp only [hp, if_pos, Option.some.injEq] at h
      refine ⟨0, by simp, ?_, ?_, ?_, ?_⟩
      · rw [← h]; simp
      · simpa [List.getD_cons_zero] using hp
      · rw [← h, List.getD_cons_zero]
      · intro k hk; exact absurd hk (Nat.not_lt_zero k)
    · simp only [hp, if_neg, if_false] at h
      obtain ⟨j, hj, hidx, hlt, hamt, hfirst⟩ := ih (i + 1) m h
      refine ⟨j + 1, by simpa using hj, by omega, ?_, ?_, ?_⟩
      · simpa [List.getD_cons_succ] using hlt
      · simpa [List.getD_cons_succ] using hamt
      · intro k hk
        cases k with
        | zero => simpa [List.getD_cons_zero] using hp
        | succ k => rw [List.getD_cons_succ]; exact hfirst k (by omega)

theorem find_first_nonempty (l : List Pile) (a : Pile)
    (h : l.find? (fun p => decide (0 < p.count)) = some a) :
    ∃ j, j < l.length ∧ l.getD j dPile = a ∧ 0 < a.count ∧
      ∀ k, k < j → (l.getD k dPile).count = 0 := by
  induction l with
  | nil => exact absurd h (by simp)
  | cons p rest ih =>
    by_cases hp : 0 < p.count
    · rw [List.find?_cons_of_pos _ (by simpa using hp)] at h
      simp only [Option.some.injEq] at h
      refine ⟨0, by simp, ?_, ?_, fun k hk => absurd hk (Nat.not_lt_zero k)⟩
      · rw [List.getD_cons_zero, h]
      · rw [← h]; exact hp
    · rw [List.find?_cons_of_neg _ (by simpa using hp)] at h
      obtain ⟨j, hj, hget, ha, hfirst⟩ := ih h
      refine ⟨j + 1, by simpa using hj, by rwa [List.getD_cons_succ], ha, ?_⟩
      intro k hk
      cases k with
      | zero => rw [List.getD_cons_zero]; omega
      | succ k => rw [List.getD_cons_succ]; exact hfirst k (by omega)

theorem find_none_all_empty (l : List Pile)
    (h : l.find? (fun p => decide (0 < p.count)) = none) :
    ∀ p ∈ l, p.count = 0 := by
  intro p hp
  have := List.find?_eq_none.mp h p hp
  simpa using this

/-- Setting a position of a list to the very element stored there leaves
the list unchanged. -/
theorem set_getElem_self (l : List Pile) : ∀ (n : Nat) (p : Pile),
    l[n]? = some p → l.set n p = l := by
  induction l with
  | nil => intro n p h; simp at h
  | cons c rest ih =>
    intro n p h
    cases n with
    | zero =>
      simp only [List.getElem?_cons_zero, Option.some.injEq] at h
      rw [List.set_cons_zero, h]
    | succ n =>
      simp only [List.getElem?_cons_succ] at h
      rw [List.set_cons_succ, ih n p h]

theorem counts_getD (g : NimGame) (j : Nat) (h : j < g.piles.length) :
    g.counts.getD j 0 = (g.piles.getD j dPile).count := by
  have hlen : j < g.counts.length := by
    simpa [NimGame.counts] using h
  rw [List.getD_eq_getElem _ 0 hlen, List.getD_eq_getElem _ dPile h]
  simp [NimGame.counts]

/-! ### C1: the AI move when the Nim-sum is nonzero -/

/-- C1. In every state whose Nim-sum is nonzero, `calculateBestMove()`
returns (without throwing) a legal move: it targets the lowest-indexed
pile `i` with `count[i] XOR nimSum < count[i]`, removes
`count[i] - (count[i] XOR nimSum)` items (an amount strictly positive
and at most the pile count), and the XOR of all pile counts after the
removal is exactly 0. -/
theorem calculateBestMove_nimSum_nonzero (g : NimGame) (h : g.nimSum ≠ 0) :
    ∃ m : Move, g.calculateBestMove = some (some m) ∧
      m.pileIndex < g.piles.length ∧
      0 < m.amount ∧
      m.amount ≤ g.counts.getD m.pileIndex 0 ∧
      (g.counts.getD m.pileIndex 0) ^^^ g.nimSum < g.counts.getD m.pileIndex 0 ∧
      m.amount = g.counts.getD m.pileIndex 0 - ((g.counts.getD m.pileIndex 0) ^^^ g.nimSum) ∧
      (∀ j, j < m.pileIndex → ¬ ((g.counts.getD j 0) ^^^ g.nimSum < g.counts.getD j 0)) ∧
      listXor (g.counts.set m.pileIndex (g.counts.getD m.pileIndex 0 - m.amount)) = 0 := by
  have hxor : g.nimSum = listXor g.counts := nimSum_eq_listXor g
  have hlen : g.counts.length = g.piles.length := by
    simp [NimGame.counts]
  obtain ⟨j0, hj0, hlt0⟩ := exists_xor_lt g.counts (by rw [← hxor]; exact h)
  have hloopne : bestMoveLoop g.nimSum g.piles 0 ≠ none := by
    intro hnone
    have := bestMoveLoop_none g.nimSum g.piles 0 hnone j0 (by omega)
    rw [counts_getD g j0 (by omega), ← hxor] at hlt0
    exact this hlt0
  obtain ⟨m, hm⟩ := Option.ne_none_iff_exists.mp hloopne
  obtain ⟨j, hj, hidx, hlt, hamt, hfirst⟩ := bestMoveLoop_some g.nimSum g.piles 0 m hm.symm
  have hidx0 : m.pileIndex = j := by omega
  have hcb : g.calculateBestMove = some (some m) := by
    unfold NimGame.calculateBestMove
    simp only [if_neg h]
    rw [← hm]
  have hcg : g.counts.getD m.pileIndex 0 = (g.piles.getD j dPile).count := by
    rw [hidx0]; exact counts_getD g j hj
  refine ⟨m, hcb, by omega, ?_, ?_, ?_, ?_, ?_, ?_⟩
  · rw [hamt]; omega
  · rw [hcg, hamt]; omega
  · rw [hcg]; exact hlt
  · rw [hcg, hamt]
  · intro k hk
    rw [counts_getD g k (by omega)]
    exact hfirst k (by omega)
  · rw [hcg, hamt]
    have ht : (g.piles.getD j dPile).count -
        ((g.piles.getD j dPile).count - ((g.piles.getD j dPile).count ^^^ g.nimSum)) =
        (g.piles.getD j dPile).count ^^^ g.nimSum := by omega
    rw [ht, hidx0, listXor_set g.counts j ((g.piles.getD j dPile).count ^^^ g.nimSum) (by omega)]
    rw [counts_getD g j hj, ← hxor, Nat.xor_comm g.nimSum ((g.piles.getD j dPile).count)]
    exact Nat.xor_self _

/-- Witness for C1 at the spec's Scenario 1: piles `[3,4,5]`, Nim-sum 2. -/
theorem calculateBestMove_nimSum_nonzero_witness :
    (NimGame.init [3, 4, 5] Player.user).nimSum ≠ 0 ∧
    ∃ m : Move, (NimGame.init [3, 4, 5] Player.user).calculateBestMove = some (some m) ∧
      m.pileIndex < (NimGame.init [3, 4, 5] Player.user).piles.length ∧
      0 < m.amount ∧
      m.amount ≤ (NimGame.init [3, 4, 5] Player.user).counts.getD m.pileIndex 0 ∧
      ((NimGame.init [3, 4, 5] Player.user).counts.getD m.pileIndex 0) ^^^
          (NimGame.init [3, 4, 5] Player.user).nimSum <
        (NimGame.init [3, 4, 5] Player.user).counts.getD m.pileIndex 0 ∧
      m.amount = (NimGame.init [3, 4, 5] Player.user).counts.getD m.pileIndex 0 -
        (((NimGame.init [3, 4, 5] Player.user).counts.getD m.pileIndex 0) ^^^
          (NimGame.init [3, 4, 5] Player.user).nimSum) ∧
      (∀ j, j < m.pileIndex →
        ¬ (((NimGame.init [3, 4, 5] Player.user).counts.getD j 0) ^^^
            (NimGame.init [3, 4, 5] Player.user).nimSum <
          (NimGame.init [3, 4, 5] Player.user).counts.getD j 0)) ∧
      listXor ((NimGame.init [3, 4, 5] Player.user).counts.set m.pileIndex
        ((NimGame.init [3, 4, 5] Player.user).counts.getD m.pileIndex 0 - m.amount)) = 0 :=
  ⟨by decide, calculateBestMove_nimSum_nonzero (NimGame.init [3, 4, 5] Player.user) (by decide)⟩

/-! ### C3: the removeItems contract -/

/-- C3. For a pile of count `c` and any integer amount `a`: when
`0 < a <= c` the call succeeds and the count becomes exactly `c - a`
(the id is untouched); when `a <= 0` or `a > c` the call fails and the
pile is unchanged. -/
theorem removeItems_spec (p : Pile) (a : Int) :
    (0 < a ∧ a ≤ (p.count : Int) →
      (p.removeItems a).1 = true ∧
      ((p.removeItems a).2.count : Int) = (p.count : Int) - a ∧
      (p.removeItems a).2.id = p.id) ∧
    (a ≤ 0 ∨ (p.count : Int) < a →
      (p.removeItems a).1 = false ∧ (p.removeItems a).2 = p) := by
  constructor
  · intro h
    rw [Pile.removeItems, if_pos h]
    refine ⟨rfl, ?_, rfl⟩
    simp only
    omega
  · intro h
    rw [Pile.removeItems, if_neg (by omega)]
    exact ⟨rfl, rfl⟩

/-- Witness for C3: removing 2 from a pile of 5 succeeds leaving 3;
removing 7 from a pile of 5 fails and changes nothing. -/
theorem removeItems_spec_witness :
    ((Pile.removeItems ⟨5, 0⟩ 2).1 = true ∧
      ((Pile.removeItems ⟨5, 0⟩ 2).2.count : Int) = ((5 : Nat) : Int) - 2 ∧
      (Pile.removeItems ⟨5, 0⟩ 2).2.id = 0) ∧
    ((Pile.removeItems ⟨5, 0⟩ 7).1 = false ∧ (Pile.removeItems ⟨5, 0⟩ 7).2 = ⟨5, 0⟩) :=
  ⟨(removeItems_spec ⟨5, 0⟩ 2).1 (by decide), (removeItems_spec ⟨5, 0⟩ 7).2 (by decide)⟩

/-! ### C9: calculateBestMove on an all-empty board -/

/-- C9. On a board whose piles are all empty the spec says
`calculateBestMove()` returns no move; the code instead reaches
`piles.find(p => p.count > 0)` with no match and throws a TypeError on
`firstPile.id` (modelled as the faulting result `none`), never reaching
its `return null`. Evaluated here at the all-empty state `[0, 0]`. -/
theorem calculateBestMove_all_empty_faults :
    (NimGame.init [0, 0] Player.user).counts = [0, 0] ∧
    (NimGame.init [0, 0] Player.user).nimSum = 0 ∧
    (NimGame.init [0, 0] Player.user).calculateBestMove = none := by
  decide

/-! ### C6: the fallback move when the Nim-sum is zero -/

/-- C6. In a state with canonical pile ids (each pile's id is its index,
as construction and reset produce) whose Nim-sum is 0 and where some
pile is nonempty, `calculateBestMove()` returns amount 1 from the
lowest-indexed nonempty pile. -/
theorem calculateBestMove_nimSum_zero (g : NimGame) (hza : g.nimSum = 0)
    (hne : ∃ p ∈ g.piles, 0 < p.count)
    (hid : ∀ j, j < g.piles.length → (g.piles.getD j dPile).id = j) :
    ∃ j, j < g.piles.length ∧ 0 < (g.piles.getD j dPile).count ∧
      (∀ k, k < j → (g.piles.getD k dPile).count = 0) ∧
      g.calculateBestMove = some (some ⟨j, 1⟩) := by
  obtain ⟨p0, hp0, hp0c⟩ := hne
  have hfind : (g.piles.find? (fun p => decide (0 < p.count))).isSome := by
    rw [List.find?_isSome]
    exact ⟨p0, hp0, by simpa using hp0c⟩
  obtain ⟨a, ha⟩ := Option.isSome_iff_exists.mp hfind
  obtain ⟨j, hj, hget, hac, hfirst⟩ := find_first_nonempty g.piles a ha
  refine ⟨j, hj, ?_, hfirst, ?_⟩
  · rw [hget]; exact hac
  · have haid : a.id = j := by rw [← hget]; exact hid j hj
    unfold NimGame.calculateBestMove
    simp only [if_pos hza]
    rw [ha]
    show some (some (Move.mk a.id 1)) = some (some (Move.mk j 1))
    rw [haid]

/-- Witness for C6 at the spec's Scenario 2: piles `[1,1]`, Nim-sum 0;
the move removes 1 item from pile 0. -/
theorem calculateBestMove_nimSum_zero_witness :
    ∃ j, j < (NimGame.init [1, 1] Player.user).piles.length ∧
      0 < ((NimGame.init [1, 1] Player.user).piles.getD j dPile).count ∧
      (∀ k, k < j → ((NimGame.init [1, 1] Player.user).piles.getD k dPile).count = 0) ∧
      (NimGame.init [1, 1] Player.user).calculateBestMove = some (some ⟨j, 1⟩) :=
  calculateBestMove_nimSum_zero (NimGame.init [1, 1] Player.user) (by decide)
    ⟨⟨1, 0⟩, by decide, by decide⟩ (by decide)

/-! ### C10: calculateBestMove is a pure query -/

/-- C10. The embedded `calculateBestMove` is a function of the state that
returns only a move (the source method never assigns to any field, so
the embedding gives it no state output): it reads nothing outside
`piles`, so any two states sharing a pile list get the identical answer,
and two calls on one state trivially agree. -/
theorem calculateBestMove_pure (g h : NimGame) (hp : g.piles = h.piles) :
    g.calculateBestMove = h.calculateBestMove ∧
    ∀ r1 r2 : Option (Option Move),
      g.calculateBestMove = r1 → g.calculateBestMove = r2 → r1 = r2 := by
  constructor
  · unfold NimGame.calculateBestMove NimGame.nimSum
    rw [hp]
  · intro r1 r2 h1 h2
    rw [← h1, ← h2]

/-- Witness for C10: two states agreeing on the piles of `[3,4,5]` but
differing in every other field get the same best move. -/
theorem calculateBestMove_pure_witness :
    ({ piles := buildPiles [3, 4, 5] 0, currentPlayer := Player.user, gameOver := false,
       winner := none, initialConfig := ⟨[3, 4, 5], Player.user⟩ } : NimGame).calculateBestMove =
      ({ piles := buildPiles [3, 4, 5] 0, currentPlayer := Player.computer, gameOver := true,
         winner := some Player.computer,
         initialConfig := ⟨[7], Player.computer⟩ } : NimGame).calculateBestMove ∧
    ∀ r1 r2 : Option (Option Move),
      ({ piles := buildPiles [3, 4, 5] 0, currentPlayer := Player.user, gameOver := false,
         winner := none, initialConfig := ⟨[3, 4, 5], Player.user⟩ } : NimGame).calculateBestMove = r1 →
      ({ piles := buildPiles [3, 4, 5] 0, currentPlayer := Player.user, gameOver := false,
         winner := none, initialConfig := ⟨[3, 4, 5], Player.user⟩ } : NimGame).calculateBestMove = r2 →
      r1 = r2 :=
  calculateBestMove_pure _ _ rfl

/-! ### C7: reset -/

theorem buildPiles_length (pc : List Nat) : ∀ s : Nat, (buildPiles pc s).length = pc.length := by
  induction pc with
  | nil => intro s; rfl
  | cons c rest ih =>
    intro s
    show (buildPiles rest (s + 1)).length + 1 = rest.length + 1
    rw [ih (s + 1)]

theorem buildPiles_getD (pc : List Nat) : ∀ s j : Nat, j < pc.length →
    (buildPiles pc s).getD j dPile = ⟨pc.getD j 0, s + j⟩ := by
  induction pc with
  | nil => intro s j h; simp at h
  | cons c rest ih =>
    intro s j h
    cases j with
    | zero =>
      show (⟨c, s⟩ :: buildPiles rest (s + 1)).getD 0 dPile = _
      rw [List.getD_cons_zero, List.getD_cons_zero, show s + 0 = s from rfl]
    | succ j =>
      show (⟨c, s⟩ :: buildPiles rest (s + 1)).getD (j + 1) dPile = _
      rw [List.getD_cons_succ, List.getD_cons_succ, ih (s + 1) j (by simpa using h)]
      have : s + 1 + j = s + (j + 1) := by omega
      rw [this]

/-- A sample mid-session state: piles played down, game finished, with a
stored initial configuration `[3,4,5]` starting with the user. -/
def playedDownState : NimGame :=
  { piles := [⟨0, 0⟩, ⟨0, 1⟩, ⟨0, 2⟩]
    currentPlayer := Player.computer
    gameOver := true
    winner := some Player.computer
    initialConfig := ⟨[3, 4, 5], Player.user⟩ }

/-- C7. `reset()` with no arguments, in any state whatsoever, rebuilds
the piles to the stored `initialConfig` sizes with ids `0..n-1`, restores
the stored starting player, clears `gameOver` and `winner`, and keeps the
stored configuration; `reset(pc, sp)` stores `{pc, sp}` as the new
baseline, so that a following no-argument reset reproduces its state
exactly. -/
theorem reset_spec (g : NimGame) (pc : List Nat) (sp : Player) :
    ((g.reset none none).piles.length = g.initialConfig.pileCounts.length ∧
     (∀ j, j < g.initialConfig.pileCounts.length →
        (g.reset none none).piles.getD j dPile = ⟨g.initialConfig.pileCounts.getD j 0, j⟩) ∧
     (g.reset none none).currentPlayer = g.initialConfig.startingPlayer ∧
     (g.reset none none).gameOver = false ∧
     (g.reset none none).winner = none ∧
     (g.reset none none).initialConfig = g.initialConfig) ∧
    ((g.reset (some pc) (some sp)).initialConfig = ⟨pc, sp⟩ ∧
     (g.reset (some pc) (some sp)).reset none none = g.reset (some pc) (some sp)) := by
  refine ⟨⟨?_, ?_, rfl, rfl, rfl, rfl⟩, rfl, rfl⟩
  · exact buildPiles_length g.initialConfig.pileCounts 0
  · intro j hj
    have := buildPiles_getD g.initialConfig.pileCounts 0 j hj
    rw [show (0 : Nat) + j = j from by omega] at this
    exact this

/-- Witness for C7 at a played-down, finished state and a fresh `[2,2]`
configuration. -/
theorem reset_spec_witness :
    ((playedDownState.reset none none).piles.length =
        playedDownState.initialConfig.pileCounts.length ∧
     (∀ j, j < playedDownState.initialConfig.pileCounts.length →
        (playedDownState.reset none none).piles.getD j dPile =
          ⟨playedDownState.initialConfig.pileCounts.getD j 0, j⟩) ∧
     (playedDownState.reset none none).currentPlayer =
        playedDownState.initialConfig.startingPlayer ∧
     (playedDownState.reset none none).gameOver = false ∧
     (playedDownState.reset none none).winner = none ∧
     (playedDownState.reset none none).initialConfig = playedDownState.initialConfig) ∧
    ((playedDownState.reset (some [2, 2]) (some Player.computer)).initialConfig =
        ⟨[2, 2], Player.computer⟩ ∧
     (playedDownState.reset (some [2, 2]) (some Player.computer)).reset none none =
        playedDownState.reset (some [2, 2]) (some Player.computer)) :=
  reset_spec playedDownState [2, 2] Player.computer

/-! ### Evaluation lemmas for the move commands -/

theorem removeItems_fail (p : Pile) (a : Int) (h : a ≤ 0 ∨ (p.count : Int) < a) :
    p.removeItems a = (false, p) := by
  rw [Pile.removeItems, if_neg (by omega)]

theorem removeItems_ok (p : Pile) (a : Int) (h : 0 < a ∧ a ≤ (p.count : Int)) :
    p.removeItems a = (true, ⟨p.count - a.toNat, p.id⟩) := by
  rw [Pile.removeItems, if_pos h]

theorem removeItems_id (p : Pile) (a : Int) : (p.removeItems a).2.id = p.id := by
  rw [Pile.removeItems]
  split <;> rfl

theorem jsGet_some (l : List Pile) (i : Int) (p : Pile) (h : jsGet l i = some p) :
    0 ≤ i ∧ l[i.toNat]? = some p := by
  by_cases hi : 0 ≤ i
  · rw [jsGet, if_pos hi] at h; exact ⟨hi, h⟩
  · rw [jsGet, if_neg hi] at h; exact absurd h (by simp)

theorem notGuard (g : NimGame) (hcp : g.currentPlayer = Player.user)
    (hgo : g.gameOver = false) : ¬(g.currentPlayer ≠ Player.user ∨ g.gameOver = true) := by
  intro hc
  rcases hc with h1 | h2
  · exact h1 hcp
  · rw [hgo] at h2; exact Bool.false_ne_true h2

theorem notGuardAI (g : NimGame) (hcp : g.currentPlayer = Player.computer)
    (hgo : g.gameOver = false) : ¬(g.currentPlayer ≠ Player.computer ∨ g.gameOver = true) := by
  intro hc
  rcases hc with h1 | h2
  · exact h1 hcp
  · rw [hgo] at h2; exact Bool.false_ne_true h2

/-- The board after the user's removal, before the game-over check. -/
def afterUserRemove (g : NimGame) (i a : Int) (p : Pile) : NimGame :=
  { g with piles := g.piles.set i.toNat ⟨p.count - a.toNat, p.id⟩ }

/-- The board after the AI's removal (whose success flag the code does
not inspect), before the game-over check. -/
def afterAIRemove (g : NimGame) (m : Move) (p : Pile) : NimGame :=
  { g with piles := g.piles.set m.pileIndex (p.removeItems (m.amount : Int)).2 }

/-- The common tail of both move commands: run `checkGameOver()` and, if
the game is not over, hand the turn to `next`. -/
def finishMove (g1 : NimGame) (next : Player) : NimGame :=
  if g1.checkGameOver.gameOver = true then g1.checkGameOver
  else { g1.checkGameOver with currentPlayer := next }

theorem userMove_guard (g : NimGame) (i a : Int)
    (h : g.currentPlayer ≠ Player.user ∨ g.gameOver = true) :
    g.userMove i a = some (false, g) := by
  rw [NimGame.userMove, if_pos h]

theorem userMove_fault (g : NimGame) (i a : Int)
    (hcp : g.currentPlayer = Player.user) (hgo : g.gameOver = false)
    (hjs : jsGet g.piles i = none) : g.userMove i a = none := by
  simp only [NimGame.userMove, if_neg (notGuard g hcp hgo), hjs]

theorem userMove_badAmount (g : NimGame) (i a : Int) (p : Pile)
    (hp : jsGet g.piles i = some p) (hbad : a ≤ 0 ∨ (p.count : Int) < a) :
    g.userMove i a = some (false, g) := by
  by_cases hg : g.currentPlayer ≠ Player.user ∨ g.gameOver = true
  · exact userMove_guard g i a hg
  · obtain ⟨hi, hget⟩ := jsGet_some g.piles i p hp
    simp only [NimGame.userMove, if_neg hg, hp, removeItems_fail p a hbad]
    simp only [Bool.false_eq_true, if_false]
    rw [set_getElem_self g.piles i.toNat p hget]

theorem userMove_success (g : NimGame) (i a : Int) (p : Pile)
    (hcp : g.currentPlayer = Player.user) (hgo : g.gameOver = false)
    (hp : jsGet g.piles i = some p) (hv : 0 < a ∧ a ≤ (p.count : Int)) :
    g.userMove i a = some (true, finishMove (afterUserRemove g i a p) Player.computer) := by
  simp only [NimGame.userMove, if_neg (notGuard g hcp hgo), hp, removeItems_ok p a hv,
    afterUserRemove, finishMove, if_true]
  split
  next => rfl
  next => rfl

theorem makeAIMove_guard (g : NimGame)
    (h : g.currentPlayer ≠ Player.computer ∨ g.gameOver = true) :
    g.makeAIMove = some (none, g) := by
  rw [NimGame.makeAIMove, if_pos h]

theorem makeAIMove_fault_calc (g : NimGame)
    (hcp : g.currentPlayer = Player.computer) (hgo : g.gameOver = false)
    (hcb : g.calculateBestMove = none) : g.makeAIMove = none := by
  simp only [NimGame.makeAIMove, if_neg (notGuardAI g hcp hgo), hcb]

theorem makeAIMove_nullMove (g : NimGame)
    (hcp : g.currentPlayer = Player.computer) (hgo : g.gameOver = false)
    (hcb : g.calculateBestMove = some none) : g.makeAIMove = some (none, g) := by
  simp only [NimGame.makeAIMove, if_neg (notGuardAI g hcp hgo), hcb]

theorem makeAIMove_fault_idx (g : NimGame) (m : Move)
    (hcp : g.currentPlayer = Player.computer) (hgo : g.gameOver = false)
    (hcb : g.calculateBestMove = some (some m))
    (hp : g.piles[m.pileIndex]? = none) : g.makeAIMove = none := by
  simp only [NimGame.makeAIMove, if_neg (notGuardAI g hcp hgo), hcb, hp]

theorem makeAIMove_eq (g : NimGame) (m : Move) (p : Pile)
    (hcp : g.currentPlayer = Player.computer) (hgo : g.gameOver = false)
    (hcb : g.calculateBestMove = some (some m))
    (hp : g.piles[m.pileIndex]? = some p) :
    g.makeAIMove = some (some m, finishMove (afterAIRemove g m p) Player.user) := by
  simp only [NimGame.makeAIMove, if_neg (notGuardAI g hcp hgo), hcb, hp,
    afterAIRemove, finishMove]
  split
  next => rfl
  next => rfl

theorem checkGameOver_pos (g : NimGame) (h : sumCounts g = 0) :
    g.checkGameOver = { g with gameOver := true, winner := some g.currentPlayer } := by
  rw [NimGame.checkGameOver, sumCounts_foldl, if_pos h]

theorem checkGameOver_neg (g : NimGame) (h : sumCounts g ≠ 0) :
    g.checkGameOver = g := by
  rw [NimGame.checkGameOver, sumCounts_foldl, if_neg h]

theorem sumCounts_piles_eq (g g2 : NimGame) (h : g.piles = g2.piles) :
    sumCounts g = sumCounts g2 := by
  unfold sumCounts NimGame.counts
  rw [h]

theorem finishMove_fields (g1 : NimGame) (next : Player) (hgo : g1.gameOver = false) :
    (finishMove g1 next).piles = g1.piles ∧
    (finishMove g1 next).initialConfig = g1.initialConfig ∧
    ((finishMove g1 next).gameOver = true ↔ sumCounts g1 = 0) ∧
    ((finishMove g1 next).gameOver = false →
      (finishMove g1 next).currentPlayer = next ∧ (finishMove g1 next).winner = g1.winner) ∧
    ((finishMove g1 next).gameOver = true →
      (finishMove g1 next).currentPlayer = g1.currentPlayer ∧
      (finishMove g1 next).winner = some g1.currentPlayer) := by
  by_cases h : sumCounts g1 = 0
  · rw [finishMove, checkGameOver_pos g1 h]
    simp [h]
  · rw [finishMove, checkGameOver_neg g1 h, hgo]
    simp [h, hgo]

/-! ### Inversion of the move commands -/

theorem userMove_inv (g g2 : NimGame) (i a : Int) (b : Bool)
    (h : g.userMove i a = some (b, g2)) :
    (b = false ∧ g2 = g) ∨
    (b = true ∧ g.currentPlayer = Player.user ∧ g.gameOver = false ∧
      ∃ p, jsGet g.piles i = some p ∧ 0 < a ∧ a ≤ (p.count : Int) ∧
        g2 = finishMove (afterUserRemove g i a p) Player.computer) := by
  by_cases hg : g.currentPlayer ≠ Player.user ∨ g.gameOver = true
  · rw [userMove_guard g i a hg] at h
    simp only [Option.some.injEq, Prod.mk.injEq] at h
    exact Or.inl ⟨h.1.symm, h.2.symm⟩
  · have hcp : g.currentPlayer = Player.user := by
      by_contra hc
      exact hg (Or.inl hc)
    have hgo : g.gameOver = false := by
      cases hb : g.gameOver with
      | false => rfl
      | true => exact absurd (Or.inr hb) hg
    cases hjs : jsGet g.piles i with
    | none =>
      rw [userMove_fault g i a hcp hgo hjs] at h
      exact Option.noConfusion h
    | some p =>
      by_cases hv : 0 < a ∧ a ≤ (p.count : Int)
      · rw [userMove_success g i a p hcp hgo hjs hv] at h
        simp only [Option.some.injEq, Prod.mk.injEq] at h
        exact Or.inr ⟨h.1.symm, hcp, hgo, p, rfl, hv.1, hv.2, h.2.symm⟩
      · rw [userMove_badAmount g i a p hjs (by omega)] at h
        simp only [Option.some.injEq, Prod.mk.injEq] at h
        exact Or.inl ⟨h.1.symm, h.2.symm⟩

theorem makeAIMove_inv (g g2 : NimGame) (mo : Option Move)
    (h : g.makeAIMove = some (mo, g2)) :
    (mo = none ∧ g2 = g) ∨
    (∃ m p, mo = some m ∧ g.currentPlayer = Player.computer ∧ g.gameOver = false ∧
      g.calculateBestMove = some (some m) ∧ g.piles[m.pileIndex]? = some p ∧
      g2 = finishMove (afterAIRemove g m p) Player.user) := by
  by_cases hg : g.currentPlayer ≠ Player.computer ∨ g.gameOver = true
  · rw [makeAIMove_guard g hg] at h
    simp only [Option.some.injEq, Prod.mk.injEq] at h
    exact Or.inl ⟨h.1.symm, h.2.symm⟩
  · have hcp : g.currentPlayer = Player.computer := by
      by_contra hc
      exact hg (Or.inl hc)
    have hgo : g.gameOver = false := by
      cases hb : g.gameOver with
      | false => rfl
      | true => exact absurd (Or.inr hb) hg
    cases hcb : g.calculateBestMove with
    | none =>
      rw [makeAIMove_fault_calc g hcp hgo hcb] at h
      exact Option.noConfusion h
    | some mo2 =>
      cases mo2 with
      | none =>
        rw [makeAIMove_nullMove g hcp hgo hcb] at h
        simp only [Option.some.injEq, Prod.mk.injEq] at h
        exact Or.inl ⟨h.1.symm, h.2.symm⟩
      | some m =>
        cases hp : g.piles[m.pileIndex]? with
        | none =>
          rw [makeAIMove_fault_idx g m hcp hgo hcb hp] at h
          exact Option.noConfusion h
        | some p =>
          rw [makeAIMove_eq g m p hcp hgo hcb hp] at h
          simp only [Option.some.injEq, Prod.mk.injEq] at h
          exact Or.inr ⟨m, p, h.1.symm, hcp, hgo, rfl, hp, h.2.symm⟩

/-! ### C5: turn alternation -/

/-- C5. A successful non-terminal move flips `currentPlayer` to the other
player; a failed move (`false` from `userMove`, null move from
`makeAIMove`) leaves the whole state unchanged; a successful terminal
move leaves `currentPlayer` on the mover, who is recorded as `winner`. -/
theorem turn_alternation :
    (∀ (g g2 : NimGame) (i a : Int), g.userMove i a = some (true, g2) →
      g.currentPlayer = Player.user ∧
      (g2.gameOver = false → g2.currentPlayer = Player.computer) ∧
      (g2.gameOver = true → g2.currentPlayer = g.currentPlayer ∧
        g2.winner = some g.currentPlayer)) ∧
    (∀ (g g2 : NimGame) (i a : Int), g.userMove i a = some (false, g2) → g2 = g) ∧
    (∀ (g g2 : NimGame) (m : Move), g.makeAIMove = some (some m, g2) →
      g.currentPlayer = Player.computer ∧
      (g2.gameOver = false → g2.currentPlayer = Player.user) ∧
      (g2.gameOver = true → g2.currentPlayer = g.currentPlayer ∧
        g2.winner = some g.currentPlayer)) ∧
    (∀ (g g2 : NimGame), g.makeAIMove = some (none, g2) → g2 = g) := by
  refine ⟨?_, ?_, ?_, ?_⟩
  · intro g g2 i a h
    rcases userMove_inv g g2 i a true h with ⟨hb, _⟩ | ⟨_, hcp, hgo, p, hp, ha1, ha2, hg2⟩
    · exact absurd hb (by simp)
    · have hgo1 : (afterUserRemove g i a p).gameOver = false := hgo
      obtain ⟨_, _, _, hnf, hf⟩ :=
        finishMove_fields (afterUserRemove g i a p) Player.computer hgo1
      subst hg2
      exact ⟨hcp, fun ho => (hnf ho).1, fun ho => ⟨(hf ho).1, (hf ho).2⟩⟩
  · intro g g2 i a h
    rcases userMove_inv g g2 i a false h with ⟨_, hg2⟩ | ⟨hb, _⟩
    · exact hg2
    · exact absurd hb (by simp)
  · intro g g2 m h
    rcases makeAIMove_inv g g2 (some m) h with ⟨hmo, _⟩ | ⟨m2, p, _, hcp, hgo, _, _, hg2⟩
    · exact absurd hmo (by simp)
    · have hgo1 : (afterAIRemove g m2 p).gameOver = false := hgo
      obtain ⟨_, _, _, hnf, hf⟩ :=
        finishMove_fields (afterAIRemove g m2 p) Player.user hgo1
      subst hg2
      exact ⟨hcp, fun ho => (hnf ho).1, fun ho => ⟨(hf ho).1, (hf ho).2⟩⟩
  · intro g g2 h
    rcases makeAIMove_inv g g2 none h with ⟨_, hg2⟩ | ⟨m2, p, hmo, _⟩
    · exact hg2
    · exact absurd hmo (by simp)

/-- The user's starting state in the witnesses below. -/
def wUserStart : NimGame := NimGame.init [3, 4, 5] Player.user

/-- The computer's starting state in the witnesses below. -/
def wCompStart : NimGame := NimGame.init [3, 4, 5] Player.computer

/-- The state after the user removes 2 from pile 0 of `wUserStart`. -/
def wAfterUser : NimGame :=
  ⟨[⟨1, 0⟩, ⟨4, 1⟩, ⟨5, 2⟩], Player.computer, false, none, ⟨[3, 4, 5], Player.user⟩⟩

/-- The state after the AI moves from `wCompStart`. -/
def wAfterAI : NimGame :=
  ⟨[⟨1, 0⟩, ⟨4, 1⟩, ⟨5, 2⟩], Player.user, false, none, ⟨[3, 4, 5], Player.computer⟩⟩

/-- Witness for C5: a successful user move and AI move on `[3,4,5]` flip
the turn; a rejected user move and an off-turn AI call change nothing. -/
theorem turn_alternation_witness :
    (wUserStart.currentPlayer = Player.user ∧
     (wAfterUser.gameOver = false → wAfterUser.currentPlayer = Player.computer) ∧
     (wAfterUser.gameOver = true → wAfterUser.currentPlayer = wUserStart.currentPlayer ∧
       wAfterUser.winner = some wUserStart.currentPlayer)) ∧
    (wUserStart = wUserStart) ∧
    (wCompStart.currentPlayer = Player.computer ∧
     (wAfterAI.gameOver = false → wAfterAI.currentPlayer = Player.user) ∧
     (wAfterAI.gameOver = true → wAfterAI.currentPlayer = wCompStart.currentPlayer ∧
       wAfterAI.winner = some wCompStart.currentPlayer)) ∧
    (wUserStart = wUserStart) :=
  ⟨turn_alternation.1 wUserStart wAfterUser 0 2 (by decide),
   turn_alternation.2.1 wUserStart wUserStart 0 10 (by decide),
   turn_alternation.2.2.1 wCompStart wAfterAI ⟨0, 2⟩ (by decide),
   turn_alternation.2.2.2 wUserStart wUserStart (by decide)⟩

/-! ### C4: rejected moves have no effect -/

/-- C4. A `userMove` off turn, after the game is over, or with an amount
invalid for the (existing) target pile returns `false` and the exact
prior state; a `makeAIMove` off turn or after the game returns a null
move and the exact prior state; and iterating such a rejected `userMove`
any number of times still leaves the state exactly as it was. -/
theorem rejected_moves_spec :
    (∀ (g : NimGame) (i a : Int), g.currentPlayer ≠ Player.user ∨ g.gameOver = true →
      g.userMove i a = some (false, g)) ∧
    (∀ (g : NimGame) (i a : Int) (p : Pile), jsGet g.piles i = some p →
      a ≤ 0 ∨ (p.count : Int) < a → g.userMove i a = some (false, g)) ∧
    (∀ g : NimGame, g.currentPlayer ≠ Player.computer ∨ g.gameOver = true →
      g.makeAIMove = some (none, g)) ∧
    (∀ (n : Nat) (g : NimGame) (i a : Int),
      (g.currentPlayer ≠ Player.user ∨ g.gameOver = true ∨
        ∃ p, jsGet g.piles i = some p ∧ (a ≤ 0 ∨ (p.count : Int) < a)) →
      (fun s : NimGame => ((s.userMove i a).getD (false, s)).2)^[n] g = g) := by
  refine ⟨userMove_guard, ?_, makeAIMove_guard, ?_⟩
  · intro g i a p hp hbad
    exact userMove_badAmount g i a p hp hbad
  · intro n
    induction n with
    | zero => intro g i a h; rfl
    | succ k ih =>
      intro g i a h
      have hone : ((g.userMove i a).getD (false, g)).2 = g := by
        rcases h with h1 | h2 | ⟨p, hp, hbad⟩
        · rw [userMove_guard g i a (Or.inl h1)]; rfl
        · rw [userMove_guard g i a (Or.inr h2)]; rfl
        · rw [userMove_badAmount g i a p hp hbad]; rfl
      rw [Function.iterate_succ_apply]
      show (fun s : NimGame => ((s.userMove i a).getD (false, s)).2)^[k]
        (((g.userMove i a).getD (false, g)).2) = g
      rw [hone]
      exact ih g i a h

/-- Witness for C4: off-turn user move, over-amount user move (the
spec's Scenario 4), off-turn AI move, and three repetitions of the
rejected user move, all on the `[3,4,5]` board. -/
theorem rejected_moves_spec_witness :
    (wCompStart.userMove 0 1 = some (false, wCompStart)) ∧
    (wUserStart.userMove 0 10 = some (false, wUserStart)) ∧
    (wUserStart.makeAIMove = some (none, wUserStart)) ∧
    ((fun s : NimGame => ((s.userMove 0 10).getD (false, s)).2)^[3] wUserStart = wUserStart) :=
  ⟨rejected_moves_spec.1 wCompStart 0 1 (by decide),
   rejected_moves_spec.2.1 wUserStart 0 10 ⟨3, 0⟩ (by decide) (by decide),
   rejected_moves_spec.2.2.1 wUserStart (by decide),
   rejected_moves_spec.2.2.2 3 wUserStart 0 10
     (Or.inr (Or.inr ⟨⟨3, 0⟩, by decide, by decide⟩))⟩

/-! ### The reachable-state invariant -/

theorem buildPiles_map_count (pc : List Nat) :
    ∀ s : Nat, (buildPiles pc s).map Pile.count = pc := by
  induction pc with
  | nil => intro s; rfl
  | cons c rest ih =>
    intro s
    show c :: (buildPiles rest (s + 1)).map Pile.count = c :: rest
    rw [ih (s + 1)]

theorem goodConfig_sum_ne (pc : List Nat) (h : goodConfig pc) : pc.sum ≠ 0 := by
  obtain ⟨hne, hpos⟩ := h
  cases pc with
  | nil => exact absurd rfl hne
  | cons c rest =>
    have hc : 0 < c := hpos c (List.mem_cons_self c rest)
    simp only [List.sum_cons]
    omega

theorem exists_nonempty_pile (g : NimGame) (h : sumCounts g ≠ 0) :
    ∃ p ∈ g.piles, 0 < p.count := by
  by_contra hc
  push_neg at hc
  apply h
  unfold sumCounts NimGame.counts
  apply List.sum_eq_zero
  intro x hx
  rw [List.mem_map] at hx
  obtain ⟨p, hp, hpx⟩ := hx
  have := hc p hp
  omega

theorem getElem?_some_getD (l : List Pile) (n : Nat) (p : Pile) (h : l[n]? = some p) :
    n < l.length ∧ l.getD n dPile = p := by
  have hn : n < l.length := by
    by_contra hcon
    rw [List.getElem?_eq_none (by omega)] at h
    exact Option.noConfusion h
  refine ⟨hn, ?_⟩
  rw [List.getD_eq_getElem _ _ hn]
  have heq := List.getElem?_eq_getElem hn
  rw [heq] at h
  simpa using h

theorem getD_set_pile (l : List Pile) : ∀ (n j : Nat) (q : Pile), j < l.length →
    (l.set n q).getD j dPile = if n = j then q else l.getD j dPile := by
  induction l with
  | nil => intro n j q hj; simp at hj
  | cons c rest ih =>
    intro n j q hj
    cases n with
    | zero =>
      cases j with
      | zero => rw [List.set_cons_zero, List.getD_cons_zero, if_pos rfl]
      | succ j =>
        rw [List.set_cons_zero, List.getD_cons_succ, List.getD_cons_succ,
          if_neg (by omega)]
    | succ n =>
      cases j with
      | zero =>
        rw [List.set_cons_succ, List.getD_cons_zero, List.getD_cons_zero, if_neg (by omega)]
      | succ j =>
        rw [List.set_cons_succ, List.getD_cons_succ, List.getD_cons_succ,
          ih n j q (by simpa using hj)]
        by_cases hnj : n = j
        · rw [if_pos hnj, if_pos (by omega)]
        · rw [if_neg hnj, if_neg (by omega)]

/-- The invariant every state reachable through the public surface
satisfies: the game is over exactly when the board is empty, the winner
is recorded exactly while the game is over (and is then the player who
moved last), pile ids are canonical, and the stored configuration is a
valid one. -/
def EngineInv (g : NimGame) : Prop :=
  ((g.gameOver = true) ↔ sumCounts g = 0) ∧
  (g.gameOver = false → g.winner = none) ∧
  (g.gameOver = true → g.winner = some g.currentPlayer) ∧
  (∀ j, j < g.piles.length → (g.piles.getD j dPile).id = j) ∧
  goodConfig g.initialConfig.pileCounts

theorem EngineInv_init (pc : List Nat) (sp : Player) (hpc : goodConfig pc) :
    EngineInv (NimGame.init pc sp) := by
  have hsum : sumCounts (NimGame.init pc sp) = pc.sum := by
    unfold sumCounts NimGame.counts NimGame.init
    rw [buildPiles_map_count pc 0]
  refine ⟨?_, fun _ => rfl, ?_, ?_, hpc⟩
  · constructor
    · intro h; exact Bool.noConfusion h
    · intro h
      rw [hsum] at h
      exact absurd h (goodConfig_sum_ne pc hpc)
  · intro h; exact Bool.noConfusion h
  · intro j hj
    have hlen : (NimGame.init pc sp).piles.length = pc.length := buildPiles_length pc 0
    have := buildPiles_getD pc 0 j (by omega)
    rw [show (0 : Nat) + j = j from by omega] at this
    show ((buildPiles pc 0).getD j dPile).id = j
    rw [this]

theorem EngineInv_finishMove (g1 : NimGame) (next : Player) (hgo : g1.gameOver = false)
    (hwin : g1.winner = none)
    (hidv : ∀ j, j < g1.piles.length → (g1.piles.getD j dPile).id = j)
    (hcfg : goodConfig g1.initialConfig.pileCounts) :
    EngineInv (finishMove g1 next) := by
  obtain ⟨hpi, hic, hover, hnf, hf⟩ := finishMove_fields g1 next hgo
  refine ⟨?_, ?_, ?_, ?_, ?_⟩
  · rw [sumCounts_piles_eq (finishMove g1 next) g1 hpi]
    exact hover
  · intro h
    rw [(hnf h).2, hwin]
  · intro h
    rw [(hf h).2, (hf h).1]
  · intro j hj
    rw [hpi] at hj ⊢
    exact hidv j hj
  · rw [hic]; exact hcfg

theorem EngineInv_userMove (g g2 : NimGame) (i a : Int) (b : Bool) (hinv : EngineInv g)
    (h : g.userMove i a = some (b, g2)) : EngineInv g2 := by
  obtain ⟨hiff, hwn, hwt, hids, hcfg⟩ := hinv
  rcases userMove_inv g g2 i a b h with ⟨_, hg2⟩ | ⟨_, hcp, hgo, p, hp, ha1, ha2, hg2⟩
  · rw [hg2]; exact ⟨hiff, hwn, hwt, hids, hcfg⟩
  · subst hg2
    obtain ⟨h0, hget⟩ := jsGet_some g.piles i p hp
    obtain ⟨hilt, hgd⟩ := getElem?_some_getD g.piles i.toNat p hget
    apply EngineInv_finishMove
    · exact hgo
    · exact hwn hgo
    · intro j hj
      have hj2 : j < g.piles.length := by
        simpa [afterUserRemove] using hj
      show ((g.piles.set i.toNat ⟨p.count - a.toNat, p.id⟩).getD j dPile).id = j
      rw [getD_set_pile g.piles i.toNat j _ hj2]
      by_cases hij : i.toNat = j
      · rw [if_pos hij]
        show p.id = j
        rw [← hgd, hids i.toNat hilt]
        exact hij
      · rw [if_neg hij]
        exact hids j hj2
    · exact hcfg

theorem EngineInv_makeAIMove (g g2 : NimGame) (mo : Option Move) (hinv : EngineInv g)
    (h : g.makeAIMove = some (mo, g2)) : EngineInv g2 := by
  obtain ⟨hiff, hwn, hwt, hids, hcfg⟩ := hinv
  rcases makeAIMove_inv g g2 mo h with ⟨_, hg2⟩ | ⟨m, p, _, hcp, hgo, hcb, hp, hg2⟩
  · rw [hg2]; exact ⟨hiff, hwn, hwt, hids, hcfg⟩
  · subst hg2
    obtain ⟨hilt, hgd⟩ := getElem?_some_getD g.piles m.pileIndex p hp
    apply EngineInv_finishMove
    · exact hgo
    · exact hwn hgo
    · intro j hj
      have hj2 : j < g.piles.length := by
        simpa [afterAIRemove] using hj
      show ((g.piles.set m.pileIndex (p.removeItems (m.amount : Int)).2).getD j dPile).id = j
      rw [getD_set_pile g.piles m.pileIndex j _ hj2]
      by_cases hij : m.pileIndex = j
      · rw [if_pos hij]
        rw [removeItems_id p (m.amount : Int)]
        rw [show p.id = (g.piles.getD m.pileIndex dPile).id from by rw [hgd]]
        rw [hids m.pileIndex hilt]
        exact hij
      · rw [if_neg hij]
        exact hids j hj2
    · exact hcfg

theorem EngineInv_reset (g : NimGame) (pc : Option (List Nat)) (sp : Option Player)
    (hcfg : goodConfig g.initialConfig.pileCounts)
    (hpc : ∀ l, pc = some l → goodConfig l) : EngineInv (g.reset pc sp) := by
  have hgood : goodConfig (pc.getD g.initialConfig.pileCounts) := by
    cases pc with
    | none => exact hcfg
    | some l => exact hpc l rfl
  exact EngineInv_init (pc.getD g.initialConfig.pileCounts)
    (sp.getD g.initialConfig.startingPlayer) hgood

theorem reachable_inv (g : NimGame) (h : Reachable g) : EngineInv g := by
  induction h with
  | init pc sp hpc => exact EngineInv_init pc sp hpc
  | user g g2 i a b hg hstep ih => exact EngineInv_userMove g g2 i a b ih hstep
  | ai g g2 m hg hstep ih => exact EngineInv_makeAIMove g g2 m ih hstep
  | reset g pc sp hg hpc ih => exact EngineInv_reset g pc sp ih.2.2.2.2 hpc

/-! ### C2: terminal correctness -/

/-- C2. In every reachable state, `gameOver` holds exactly when the sum
of all pile counts is 0; `winner` is unset while the game runs and,
from the transition into `gameOver` on, equals the player who made the
emptying move (the user for the final `userMove`, the computer for the
final `makeAIMove`, and in general the `currentPlayer` left in place by
that final move). -/
theorem gameOver_winner_terminal (g : NimGame) (hg : Reachable g) :
    ((g.gameOver = true) ↔ sumCounts g = 0) ∧
    (g.gameOver = false → g.winner = none) ∧
    (g.gameOver = true → g.winner = some g.currentPlayer) ∧
    (∀ (g2 : NimGame) (i a : Int), g.userMove i a = some (true, g2) →
      g2.gameOver = true → g2.winner = some Player.user) ∧
    (∀ (g2 : NimGame) (m : Move), g.makeAIMove = some (some m, g2) →
      g2.gameOver = true → g2.winner = some Player.computer) := by
  obtain ⟨hiff, hwn, hwt, _, _⟩ := reachable_inv g hg
  refine ⟨hiff, hwn, hwt, ?_, ?_⟩
  · intro g2 i a h hover
    rcases userMove_inv g g2 i a true h with ⟨hb, _⟩ | ⟨_, hcp, hgo, p, hp, _, _, hg2⟩
    · exact absurd hb (by simp)
    · subst hg2
      obtain ⟨_, _, _, _, hf⟩ :=
        finishMove_fields (afterUserRemove g i a p) Player.computer hgo
      rw [(hf hover).2]
      rw [show (afterUserRemove g i a p).currentPlayer = g.currentPlayer from rfl, hcp]
  · intro g2 m h hover
    rcases makeAIMove_inv g g2 (some m) h with ⟨hmo, _⟩ | ⟨m2, p, _, hcp, hgo, _, _, hg2⟩
    · exact absurd hmo (by simp)
    · subst hg2
      obtain ⟨_, _, _, _, hf⟩ :=
        finishMove_fields (afterAIRemove g m2 p) Player.user hgo
      rw [(hf hover).2]
      rw [show (afterAIRemove g m2 p).currentPlayer = g.currentPlayer from rfl, hcp]

/-- A one-pile board about to be emptied by the user. -/
def wLastPile : NimGame := NimGame.init [5] Player.user

/-- The state after the user takes all 5: over, user wins. -/
def wUserWin : NimGame :=
  ⟨[⟨0, 0⟩], Player.user, true, some Player.user, ⟨[5], Player.user⟩⟩

/-- A one-pile board about to be emptied by the computer. -/
def wAILastPile : NimGame := NimGame.init [1] Player.computer

/-- The state after the AI takes the last item: over, computer wins. -/
def wAIWin : NimGame :=
  ⟨[⟨0, 0⟩], Player.computer, true, some Player.computer, ⟨[1], Player.computer⟩⟩

/-- Witness for C2 at the spec's Scenario 3 shape: emptying moves by
each player set that player as winner; the invariant holds at the
freshly constructed `[5]` board. -/
theorem gameOver_winner_terminal_witness :
    ((wLastPile.gameOver = true) ↔ sumCounts wLastPile = 0) ∧
    (wLastPile.winner = none) ∧
    (wLastPile.gameOver = true → wLastPile.winner = some wLastPile.currentPlayer) ∧
    (wUserWin.winner = some Player.user) ∧
    (wAIWin.winner = some Player.computer) :=
  ⟨(gameOver_winner_terminal wLastPile
      (Reachable.init [5] Player.user (by decide))).1,
   (gameOver_winner_terminal wLastPile
      (Reachable.init [5] Player.user (by decide))).2.1 rfl,
   (gameOver_winner_terminal wLastPile
      (Reachable.init [5] Player.user (by decide))).2.2.1,
   (gameOver_winner_terminal wLastPile
      (Reachable.init [5] Player.user (by decide))).2.2.2.1 wUserWin 0 5
      (by decide) (by decide),
   (gameOver_winner_terminal wAILastPile
      (Reachable.init [1] Player.computer (by decide))).2.2.2.2 wAIWin ⟨0, 1⟩
      (by decide) (by decide)⟩

/-! ### C8: fault-freedom of the engine operations -/

/-- C8 counterexample: on the freshly built `[3,4,5]` board, during the
human's turn in a live game, `userMove(5, 1)` reads `piles[5]`
(`undefined`) and calls `removeItems` on it, throwing a TypeError
(modelled `none`) instead of returning a failure value — so the engine
does not tolerate "any pileIndex whatsoever". -/
theorem userMove_out_of_range_faults :
    (NimGame.init [3, 4, 5] Player.user).userMove 5 1 = none := by
  decide

theorem calculateBestMove_total (g : NimGame)
    (hne : ∃ p ∈ g.piles, 0 < p.count)
    (hid : ∀ j, j < g.piles.length → (g.piles.getD j dPile).id = j) :
    ∃ m : Move, g.calculateBestMove = some (some m) ∧ m.pileIndex < g.piles.length := by
  by_cases hns : g.nimSum = 0
  · have hfind : (g.piles.find? (fun p => decide (0 < p.count))).isSome := by
      rw [List.find?_isSome]
      obtain ⟨p, hp, hc⟩ := hne
      exact ⟨p, hp, by simpa using hc⟩
    obtain ⟨a, ha⟩ := Option.isSome_iff_exists.mp hfind
    obtain ⟨j, hj, hget, _, _⟩ := find_first_nonempty g.piles a ha
    have haid : a.id = j := by rw [← hget]; exact hid j hj
    refine ⟨⟨a.id, 1⟩, ?_, ?_⟩
    · unfold NimGame.calculateBestMove
      simp only [if_pos hns]
      rw [ha]
    · show a.id < g.piles.length
      rw [haid]; exact hj
  · have hxor : g.nimSum = listXor g.counts := nimSum_eq_listXor g
    have hlen : g.counts.length = g.piles.length := by simp [NimGame.counts]
    obtain ⟨j0, hj0, hlt0⟩ := exists_xor_lt g.counts (by rw [← hxor]; exact hns)
    have hloopne : bestMoveLoop g.nimSum g.piles 0 ≠ none := by
      intro hnone
      have := bestMoveLoop_none g.nimSum g.piles 0 hnone j0 (by omega)
      rw [counts_getD g j0 (by omega), ← hxor] at hlt0
      exact this hlt0
    obtain ⟨m, hm⟩ := Option.ne_none_iff_exists.mp hloopne
    obtain ⟨j, hj, hidx, _, _, _⟩ := bestMoveLoop_some g.nimSum g.piles 0 m hm.symm
    refine ⟨m, ?_, by omega⟩
    unfold NimGame.calculateBestMove
    simp only [if_neg hns]
    rw [← hm]

/-- C8 (amended). On every reachable state (positive-integer
construction and reset), the engine operations return values rather
than faulting — with `userMove` restricted to an in-range `pileIndex`
(an out-of-range one throws, see the counterexample) and
`calculateBestMove` called while the game is live (on the empty board
it throws, the C9 bug). -/
theorem engine_no_fault (g : NimGame) (hg : Reachable g) :
    (∀ i a : Int, 0 ≤ i → i < (g.piles.length : Int) →
      ∃ r : Bool × NimGame, g.userMove i a = some r) ∧
    (∃ r : Option Move × NimGame, g.makeAIMove = some r) ∧
    (g.gameOver = false → ∃ mo : Option Move, g.calculateBestMove = some mo) := by
  obtain ⟨hiff, hwn, hwt, hids, hcfg⟩ := reachable_inv g hg
  have hlive : g.gameOver = false → ∃ p ∈ g.piles, 0 < p.count := by
    intro hgo
    apply exists_nonempty_pile
    intro hs
    rw [hiff.mpr hs] at hgo
    exact Bool.noConfusion hgo
  refine ⟨?_, ?_, ?_⟩
  · intro i a h0 hlen
    by_cases hguard : g.currentPlayer ≠ Player.user ∨ g.gameOver = true
    · exact ⟨(false, g), userMove_guard g i a hguard⟩
    · have hcp : g.currentPlayer = Player.user := by
        by_contra hc; exact hguard (Or.inl hc)
      have hgo : g.gameOver = false := by
        cases hb : g.gameOver with
        | false => rfl
        | true => exact absurd (Or.inr hb) hguard
      have hi : i.toNat < g.piles.length := by omega
      have hjs : jsGet g.piles i = some (g.piles.getD i.toNat dPile) := by
        rw [jsGet, if_pos h0, List.getElem?_eq_getElem hi, List.getD_eq_getElem _ _ hi]
      by_cases hv : 0 < a ∧ a ≤ ((g.piles.getD i.toNat dPile).count : Int)
      · exact ⟨_, userMove_success g i a _ hcp hgo hjs hv⟩
      · exact ⟨(false, g), userMove_badAmount g i a _ hjs (by omega)⟩
  · by_cases hguard : g.currentPlayer ≠ Player.computer ∨ g.gameOver = true
    · exact ⟨(none, g), makeAIMove_guard g hguard⟩
    · have hcp : g.currentPlayer = Player.computer := by
        by_contra hc; exact hguard (Or.inl hc)
      have hgo : g.gameOver = false := by
        cases hb : g.gameOver with
        | false => rfl
        | true => exact absurd (Or.inr hb) hguard
      obtain ⟨m, hcb, hmb⟩ := calculateBestMove_total g (hlive hgo) hids
      cases hp : g.piles[m.pileIndex]? with
      | none =>
        rw [List.getElem?_eq_none_iff] at hp
        omega
      | some p =>
        exact ⟨_, makeAIMove_eq g m p hcp hgo hcb hp⟩
  · intro hgo
    obtain ⟨m, hcb, _⟩ := calculateBestMove_total g (hlive hgo) hids
    exact ⟨some m, hcb⟩

/-- Witness for C8 (amended) at the `[3,4,5]` board: the in-range user
move returns, the AI command returns, and the best-move query returns. -/
theorem engine_no_fault_witness :
    (∃ r : Bool × NimGame, wUserStart.userMove 1 2 = some r) ∧
    (∃ r : Option Move × NimGame, wUserStart.makeAIMove = some r) ∧
    (∃ mo : Option Move, wUserStart.calculateBestMove = some mo) :=
  ⟨(engine_no_fault wUserStart (Reachable.init [3, 4, 5] Player.user (by decide))).1 1 2
      (by decide) (by decide),
   (engine_no_fault wUserStart (Reachable.init [3, 4, 5] Player.user (by decide))).2.1,
   (engine_no_fault wUserStart (Reachable.init [3, 4, 5] Player.user (by decide))).2.2 rfl⟩
